import Mathlib

set_option maxRecDepth 4000

/-!
Verification of the TypingMind bionic-reading extension core
(`bionic-reading.js`, V3.0 build) against its specification.

Strings are modelled as `List Char`.  JavaScript's `\p{L}\p{N}` character
classes are modelled over the ASCII range (as are the claims' concrete
inputs); `\s` is modelled by the explicit whitespace code-point list.
Machine floats appear only in `Math.round(wordLength * 0.43)`, which on
the relevant range agrees with exact rational rounding, modelled as the
Nat computation `(43 * n + 50) / 100`.
-/

/-- Character class of the regex class `[\p{L}\p{N}]`, over ASCII
(`a`-`z`, `A`-`Z`, `0`-`9` as code points). -/
def isWordChar (c : Char) : Bool :=
  (97 ≤ c.toNat && c.toNat ≤ 122) || (65 ≤ c.toNat && c.toNat ≤ 90) ||
  (48 ≤ c.toNat && c.toNat ≤ 57)

/-- The regex class `\d` (`0`-`9`). -/
def isDigitChar (c : Char) : Bool :=
  48 ≤ c.toNat && c.toNat ≤ 57

/-- The regex class `\s` of JavaScript (whitespace code points). -/
def isSpaceChar (c : Char) : Bool :=
  c.toNat = 32 || c.toNat = 9 || c.toNat = 10 || c.toNat = 13 ||
  c.toNat = 11 || c.toNat = 12 || c.toNat = 160 || c.toNat = 0x1680 ||
  (0x2000 ≤ c.toNat && c.toNat ≤ 0x200A) || c.toNat = 0x2028 ||
  c.toNat = 0x2029 || c.toNat = 0x202F || c.toNat = 0x205F ||
  c.toNat = 0x3000 || c.toNat = 0xFEFF

/-- The joiner class of `REGEX.WORD_PARTS` in the source: a hyphen or an
ASCII apostrophe (code points 45 and 39). -/
def isJoinChar (c : Char) : Bool :=
  c.toNat = 45 || c.toNat = 39

/-- Hexadecimal digit, for the regex class `[0-9a-f]` with the `i` flag. -/
def isHexChar (c : Char) : Bool :=
  isDigitChar c || (97 ≤ c.toNat && c.toNat ≤ 102) ||
  (65 ≤ c.toNat && c.toNat ≤ 70)

theorem isSpaceChar_of_isWordChar {c : Char} (h : isWordChar c = true) :
    isSpaceChar c = false := by
  simp only [isWordChar, isSpaceChar, Bool.or_eq_true, Bool.and_eq_true,
    decide_eq_true_eq] at h ⊢
  simp only [Bool.or_eq_false_iff, Bool.and_eq_false_iff,
    decide_eq_false_iff_not]
  omega

theorem space_ne_chars {c : Char} (h : isSpaceChar c = true) :
    c.toNat ≠ 60 ∧ c.toNat ≠ 62 ∧ c.toNat ≠ 47 ∧ c.toNat ≠ 98 := by
  simp only [isSpaceChar, Bool.or_eq_true, Bool.and_eq_true,
    decide_eq_true_eq] at h
  omega

theorem wordChar_ne_lt {c : Char} (h : isWordChar c = true) : c ≠ '<' := by
  intro hc
  subst hc
  simp only [isWordChar, Bool.or_eq_true, Bool.and_eq_true,
    decide_eq_true_eq, show '<'.toNat = 60 from rfl] at h
  omega

theorem joinChar_ne_lt {c : Char} (h : isJoinChar c = true) : c ≠ '<' := by
  intro hc
  subst hc
  simp only [isJoinChar, Bool.or_eq_true, decide_eq_true_eq,
    show '<'.toNat = 60 from rfl] at h
  omega

-- =========================================================================
-- Emphasis length (source: `getBoldLength`)
-- =========================================================================

/-- Source `getBoldLength(wordLength)`: 1 for word lengths up to 3, otherwise
`Math.round(wordLength * 0.43)` with `BOLD_RATIO = 0.43`, computed exactly
as `(43 * n + 50) / 100` in natural arithmetic (round half away from zero,
as `Math.round` does). -/
def getBoldLength (n : Nat) : Nat :=
  if n ≤ 3 then 1 else (43 * n + 50) / 100

theorem getBoldLength_pos (n : Nat) : 1 ≤ getBoldLength n := by
  unfold getBoldLength
  split
  · exact le_refl 1
  · next h =>
    have h2 : 222 ≤ 43 * n + 50 := by omega
    have h3 := Nat.div_le_div_right (c := 100) h2
    omega

theorem getBoldLength_lt (n : Nat) (h : 2 ≤ n) : getBoldLength n < n := by
  unfold getBoldLength
  split
  · omega
  · next h3 =>
    have h5 : (43 * n + 50) / 100 * 100 ≤ 43 * n + 50 := Nat.div_mul_le_self _ _
    by_contra hc
    push_neg at hc
    have h6 : 100 * n ≤ 100 * ((43 * n + 50) / 100) := by omega
    omega

theorem floor_natDiv_hundred (q : Nat) :
    ⌊(q : ℚ) / 100⌋ = ((q / 100 : ℕ) : ℤ) := by
  have h := Nat.div_add_mod q 100
  have hm : q % 100 < 100 := Nat.mod_lt _ (by norm_num)
  rw [Int.floor_eq_iff]
  constructor
  · rw [le_div_iff₀ (by norm_num : (0:ℚ) < 100)]
    have : (q / 100) * 100 ≤ q := Nat.div_mul_le_self _ _
    exact_mod_cast this
  · rw [div_lt_iff₀ (by norm_num : (0:ℚ) < 100)]
    have : q < (q / 100 + 1) * 100 := by omega
    exact_mod_cast this

-- =========================================================================
-- Pending queue and scheduler (source: `queueNode`, `processBatch`)
-- =========================================================================

/-- State of the rAF batching scheduler: the pending node queue, the
`rafScheduled` flag and the `isEnabled` flag.  Nodes are abstracted as
natural numbers. -/
structure SchedState where
  pending : List Nat
  rafScheduled : Bool
  isEnabled : Bool
deriving DecidableEq

/-- Source `queueNode(node)`: if the queue already holds more than 1000 entries the
node is not enqueued (the early `return`); otherwise it is pushed and a
display-refresh callback is requested when none is scheduled. -/
def queueNode (s : SchedState) (n : Nat) : SchedState :=
  if s.pending.length > 1000 then s
  else { s with pending := s.pending ++ [n], rafScheduled := true }

/-- Source `processBatch()`: clears `rafScheduled`, bails out (dropping the queue)
when disabled or empty, otherwise splices up to `MAX_BATCH_SIZE = 50` nodes
off the front, processes them in order, and requests exactly one further
callback when entries remain.  Returns the new state and the processed
batch. -/
def processBatch (s : SchedState) : SchedState × List Nat :=
  if !s.isEnabled || s.pending.isEmpty then
    ({ s with pending := [], rafScheduled := false }, [])
  else
    ({ s with pending := s.pending.drop 50,
              rafScheduled := !(s.pending.drop 50).isEmpty },
     s.pending.take 50)

-- =========================================================================
-- Toggle (source: `toggleExtension`)
-- =========================================================================

/-- State relevant to `toggleExtension`: the in-memory `isEnabled` flag,
the persisted `localStorage` value under `STORAGE_KEY`, and the pending
queue (cleared on disable). -/
structure ToggleState where
  isEnabled : Bool
  stored : Option String
  pending : List Nat
deriving DecidableEq

/-- String form written by `localStorage.setItem(CONFIG.STORAGE_KEY, isEnabled)`. -/
def boolStr (b : Bool) : String :=
  if b then "true" else "false"

/-- Source `toggleExtension()`: flips `isEnabled`, immediately persists the new
value, and on disabling clears the pending queue. -/
def toggleExtension (s : ToggleState) : ToggleState :=
  let e := !s.isEnabled
  { isEnabled := e
    stored := some (boolStr e)
    pending := if e then s.pending else [] }

-- =========================================================================
-- Observer debounce (source: `setupObserver` in extension/bionic-reading.js)
-- =========================================================================

/-- Constant `USER_SETTINGS.DEBOUNCE_MS` of extension/bionic-reading.js. -/
def DEBOUNCE_MS : Nat := 100

/-- Trailing-debounce model of `setupObserver`'s timer: every mutation event
at time `t` clears the pending timeout and schedules processing at
`t + D`; the timeout fires iff no further event arrives by then.  Input:
the sorted list of mutation-event times; output: the processing times. -/
def debounceFires (D : Nat) : List Nat → List Nat
  | [] => []
  | [t] => [t + D]
  | t :: t' :: rest =>
    if t + D < t' then (t + D) :: debounceFires D (t' :: rest)
    else debounceFires D (t' :: rest)

-- =========================================================================
-- Claims C2, C3 (emphasis prefix length)
-- =========================================================================

/-- Claim C2: for every word length `n`, the computed emphasis prefix length
equals 1 when `n ≤ 3`, and equals `round(n * 0.43)` when `n > 3` (ratio at
its default 0.43). -/
theorem getBoldLength_rule (n : Nat) :
    (n ≤ 3 → getBoldLength n = 1) ∧
    (3 < n → (getBoldLength n : ℤ) = round ((n : ℚ) * (43 / 100))) := by
  constructor
  · intro h
    rw [getBoldLength, if_pos h]
  · intro h
    rw [round_eq]
    have he : (n : ℚ) * (43 / 100) + 1 / 2 = ((43 * n + 50 : ℕ) : ℚ) / 100 := by
      push_cast
      ring
    rw [he, floor_natDiv_hundred, getBoldLength, if_neg (by omega)]

theorem getBoldLength_rule_witness :
    getBoldLength 2 = 1 ∧ (getBoldLength 7 : ℤ) = round ((7 : ℚ) * (43 / 100)) :=
  ⟨(getBoldLength_rule 2).1 (by norm_num), (getBoldLength_rule 7).2 (by norm_num)⟩

/-- Claim C3: for every word length `n > 1` the emphasis prefix length is at
least 1 and strictly less than `n`; for `n = 0` or `n = 1` it is 1. -/
theorem getBoldLength_bounds (n : Nat) :
    (1 < n → 1 ≤ getBoldLength n ∧ getBoldLength n < n) ∧
    (n = 0 ∨ n = 1 → getBoldLength n = 1) := by
  constructor
  · intro h
    exact ⟨getBoldLength_pos n, getBoldLength_lt n (by omega)⟩
  · rintro (rfl | rfl) <;> rfl

theorem getBoldLength_bounds_witness :
    (1 ≤ getBoldLength 5 ∧ getBoldLength 5 < 5) ∧ getBoldLength 1 = 1 :=
  ⟨(getBoldLength_bounds 5).1 (by norm_num), (getBoldLength_bounds 1).2 (Or.inr rfl)⟩

-- =========================================================================
-- Claim C4 (queue overflow policy)
-- =========================================================================

/-- Claim C4 counterexample: with 1001 pending entries, `queueNode` drops the
newly offered node and keeps the queue unchanged — the oldest entry `0` is
still at the front and the new node `5000` is not retained, contradicting
"the oldest excess entries are dropped ... newly discovered units are
retained in preference to older pending ones". -/
theorem queueNode_keeps_old_counterexample :
    queueNode ⟨List.range 1001, true, true⟩ 5000 = ⟨List.range 1001, true, true⟩ ∧
    5000 ∉ (queueNode ⟨List.range 1001, true, true⟩ 5000).pending ∧
    (queueNode ⟨List.range 1001, true, true⟩ 5000).pending.head? = some 0 := by
  have h : (List.range 1001).length > 1000 := by simp
  refine ⟨?_, ?_, ?_⟩
  · rw [queueNode, if_pos h]
  · rw [queueNode, if_pos h]
    intro hmem
    have := List.mem_range.mp hmem
    omega
  · rw [queueNode, if_pos h]
    rfl

/-- Claim C4 (amended): whenever the pending queue already exceeds the hard
cap of 1000 entries, `queueNode` drops the newly offered entry and keeps the
existing queue unchanged (older pending entries are retained in preference
to newly discovered ones); below the cap the entry is appended, so the queue
length never exceeds 1001. -/
theorem queueNode_overflow_rule (s : SchedState) (n : Nat) :
    (s.pending.length > 1000 → queueNode s n = s) ∧
    (s.pending.length ≤ 1000 → (queueNode s n).pending = s.pending ++ [n]) ∧
    (s.pending.length ≤ 1001 → (queueNode s n).pending.length ≤ 1001) := by
  refine ⟨fun h => by rw [queueNode, if_pos h], fun h => ?_, fun h => ?_⟩
  · rw [queueNode, if_neg (by omega)]
  · by_cases hc : s.pending.length > 1000
    · rw [queueNode, if_pos hc]
      omega
    · rw [queueNode, if_neg hc]
      simp only [List.length_append, List.length_cons, List.length_nil]
      omega

theorem queueNode_overflow_rule_witness :
    (queueNode ⟨[8], true, true⟩ 3).pending = [8] ++ [3] ∧
    queueNode ⟨List.range 1001, false, true⟩ 4 = ⟨List.range 1001, false, true⟩ :=
  ⟨(queueNode_overflow_rule ⟨[8], true, true⟩ 3).2.1 (by simp),
   (queueNode_overflow_rule ⟨List.range 1001, false, true⟩ 4).1 (by simp)⟩

-- =========================================================================
-- Claim C5 (scheduler batching)
-- =========================================================================

/-- Claim C5: each `processBatch` callback removes at most 50 units from the
front of the queue in order, schedules exactly one further callback iff
entries remain; a 120-unit queue drains in exactly 3 callbacks processing
50, 50 and 20 units, after which no callback is pending until `queueNode`
enqueues a new unit. -/
theorem processBatch_spec (s : SchedState) (h : s.isEnabled = true) :
    (processBatch s).2 = s.pending.take 50 ∧
    (processBatch s).1.pending = s.pending.drop 50 ∧
    ((processBatch s).1.rafScheduled = true ↔ s.pending.drop 50 ≠ []) ∧
    ((processBatch ⟨List.range 120, true, true⟩).2.length = 50 ∧
     (processBatch (processBatch ⟨List.range 120, true, true⟩).1).2.length = 50 ∧
     (processBatch (processBatch (processBatch ⟨List.range 120, true, true⟩).1).1).2.length = 20 ∧
     (processBatch (processBatch (processBatch ⟨List.range 120, true, true⟩).1).1).1.pending = [] ∧
     (processBatch (processBatch (processBatch ⟨List.range 120, true, true⟩).1).1).1.rafScheduled = false ∧
     (queueNode (processBatch (processBatch (processBatch ⟨List.range 120, true, true⟩).1).1).1 7).rafScheduled = true) := by
  refine ⟨?_, ?_, ?_, by decide⟩
  · rw [processBatch]
    by_cases he : s.pending.isEmpty
    · rw [if_pos (by simp [h, he])]
      rw [List.isEmpty_iff] at he
      simp [he]
    · rw [if_neg (by simp [h, he])]
  · rw [processBatch]
    by_cases he : s.pending.isEmpty
    · rw [if_pos (by simp [h, he])]
      rw [List.isEmpty_iff] at he
      simp [he]
    · rw [if_neg (by simp [h, he])]
  · rw [processBatch]
    by_cases he : s.pending.isEmpty
    · rw [if_pos (by simp [h, he])]
      rw [List.isEmpty_iff] at he
      simp [he]
    · rw [if_neg (by simp [h, he])]
      simp [List.isEmpty_iff]

theorem processBatch_spec_witness :
    (processBatch ⟨List.range 120, true, true⟩).2 = (List.range 120).take 50 :=
  (processBatch_spec ⟨List.range 120, true, true⟩ rfl).1

-- =========================================================================
-- Claim C9 (streaming debounce)
-- =========================================================================

/-- Claim C9 counterexample: with the source's `DEBOUNCE_MS = 100` trailing
debounce, a unit receiving mutation events at 0ms, 400ms and 800ms is
processed at 100ms — while events are still arriving at that cadence — and
is never processed at 800 + 1000 = 1800ms, contradicting both halves of the
claim (never queued while events continue; queued after a 1000ms debounce). -/
theorem debounce_400ms_counterexample :
    DEBOUNCE_MS = 100 ∧
    debounceFires DEBOUNCE_MS [0, 400, 800] = [100, 500, 900] ∧
    (100 ∈ debounceFires DEBOUNCE_MS [0, 400, 800] ∧ 100 < 400) ∧
    800 + 1000 ∉ debounceFires DEBOUNCE_MS [0, 400, 800] := by
  decide

/-- Claim C9 (amended): the source's debounce threshold is `DEBOUNCE_MS =
100`, a trailing debounce: whenever consecutive mutation events are more
than 100ms apart (in particular at a 400ms cadence), the unit is processed
100ms after every event — processing is not suppressed while events
continue — and after the last event it is processed once the 100ms debounce
elapses. -/
theorem debounce_trailing_rule (evts : List Nat)
    (h : List.Chain' (fun a b => a + DEBOUNCE_MS < b) evts) :
    debounceFires DEBOUNCE_MS evts = evts.map (· + DEBOUNCE_MS) := by
  induction evts with
  | nil => rfl
  | cons t rest ih =>
    cases rest with
    | nil => rfl
    | cons t' r =>
      obtain ⟨h1, h2⟩ := List.chain'_cons.mp h
      rw [debounceFires, if_pos h1, ih h2]
      rfl

theorem debounce_trailing_rule_witness :
    debounceFires DEBOUNCE_MS [0, 400, 800] = [0, 400, 800].map (· + DEBOUNCE_MS) :=
  debounce_trailing_rule [0, 400, 800]
    (by norm_num [List.chain'_cons, DEBOUNCE_MS])

-- =========================================================================
-- Claim C10 (toggle)
-- =========================================================================

/-- Claim C10: every `toggleExtension` call flips the in-memory enabled flag
and immediately persists the new value, so the persisted flag always equals
the in-memory state after a toggle, and two consecutive toggles restore the
original enabled state. -/
theorem toggleExtension_rule (s : ToggleState) :
    (toggleExtension s).isEnabled = !s.isEnabled ∧
    (toggleExtension s).stored = some (boolStr (toggleExtension s).isEnabled) ∧
    (toggleExtension (toggleExtension s)).isEnabled = s.isEnabled := by
  refine ⟨rfl, rfl, ?_⟩
  simp [toggleExtension]

-- =========================================================================
-- Exclusion classifier (source: `REGEX` table and `shouldSkipWord`)
-- =========================================================================

/-- Tail matcher for `REGEX.NUMERIC = /^\d+([.,]\d+)*%?$/`: accepts what may
follow the leading digit run. -/
def numTail : List Char → Bool
  | [] => true
  | ['%'] => true
  | c :: t =>
    if isDigitChar c then numTail t
    else if c = '.' || c = ',' then
      match t with
      | d :: t' => isDigitChar d && numTail t'
      | [] => false
    else false

/-- Test `REGEX.NUMERIC.test(word)`. -/
def numericB : List Char → Bool
  | [] => false
  | c :: t => isDigitChar c && numTail t

/-- Case-insensitive prefix test (the regex `i` flag); patterns are given in
lowercase. -/
def startsWithLower (pat w : List Char) : Bool :=
  (w.take pat.length).map Char.toLower == pat

/-- Test of `REGEX.URL`, the case-insensitive prefixes `http://`, `https://`, `www.`, `mailto:`, `tel:`, `ftp:`. -/
def urlB (w : List Char) : Bool :=
  startsWithLower "http://".data w || startsWithLower "https://".data w ||
  startsWithLower "www.".data w || startsWithLower "mailto:".data w ||
  startsWithLower "tel:".data w || startsWithLower "ftp:".data w

/-- After the optional `v`: `\d+\.\d+` as a prefix. -/
def versionCore (l : List Char) : Bool :=
  !(l.takeWhile isDigitChar).isEmpty &&
  (match l.dropWhile isDigitChar with
   | '.' :: d :: _ => isDigitChar d
   | _ => false)

/-- Test of `REGEX.VERSION`, an optional `v` then digits, dot, digits as a prefix (case-insensitive). -/
def versionB : List Char → Bool
  | [] => false
  | c :: t => if c = 'v' || c = 'V' then versionCore t else versionCore (c :: t)

/-- Test of `REGEX.UUID`: eight case-insensitive hex digits followed by a hyphen, as a prefix. -/
def uuidB (w : List Char) : Bool :=
  match w with
  | a :: b :: c :: d :: e :: f :: g :: h :: '-' :: _ =>
    isHexChar a && isHexChar b && isHexChar c && isHexChar d &&
    isHexChar e && isHexChar f && isHexChar g && isHexChar h
  | _ => false

/-- Test of `REGEX.TIME`: one or two digits, a colon, two digits, as a prefix. -/
def timeB (w : List Char) : Bool :=
  match w with
  | a :: ':' :: b :: c :: _ => isDigitChar a && isDigitChar b && isDigitChar c
  | a :: b :: ':' :: c :: d :: _ =>
    isDigitChar a && isDigitChar b && isDigitChar c && isDigitChar d
  | _ => false

/-- Matches `k` digits, then `-` or `/`, then one digit (a disjunct of
`REGEX.DATE = /^\d{1,4}[-\/]\d{1,2}/`). -/
def digitsSepDigit : Nat → List Char → Bool
  | 0, s :: d :: _ => (s = '-' || s = '/') && isDigitChar d
  | Nat.succ k, c :: t => isDigitChar c && digitsSepDigit k t
  | _, _ => false

/-- Test `REGEX.DATE.test(word)`: one to four digits, a `-` or `/` separator, then a digit, as a prefix. -/
def dateB (w : List Char) : Bool :=
  digitsSepDigit 1 w || digitsSepDigit 2 w || digitsSepDigit 3 w ||
  digitsSepDigit 4 w

/-- Value of `word.split('.')[1]` when the word contains exactly one dot: the
characters after the first dot. -/
def fileExt (w : List Char) : List Char :=
  (w.dropWhile (· != '.')).drop 1

/-- The filename heuristic body: `parts.length === 2 && parts[1].length <= 5
&& /^[a-z0-9]+$/i.test(parts[1])`. -/
def fileB (w : List Char) : Bool :=
  w.count '.' == 1 && !(fileExt w).isEmpty &&
  decide ((fileExt w).length ≤ 5) && (fileExt w).all isWordChar

/-- Source `shouldSkipWord(word)`, with the guards and evaluation order of the
source. -/
def shouldSkipWord (w : List Char) : Bool :=
  if w.length < 2 then true
  else if w.all isSpaceChar then true
  else if numericB w then true
  else if decide (4 < w.length) && (urlB w || versionB w || uuidB w) then true
  else if w.contains ':' && timeB w then true
  else if (w.contains '-' || w.contains '/') && dateB w then true
  else if w.contains '.' && decide (w.length < 20) && fileB w then true
  else false

-- =========================================================================
-- Word decomposition (source: `REGEX.WORD_PARTS` and `processWord`)
-- =========================================================================

/-- Head-is-a-word-character test, for the joiner lookahead. -/
def firstIsWord : List Char → Bool
  | c :: _ => isWordChar c
  | [] => false

/-- Greedy parse of the core group `[\p{L}\p{N}]+(?:[-''][\p{L}\p{N}]+)*`:
returns the matched core and the unconsumed remainder.  A joiner is consumed
only when followed by a word character, as in the regex. -/
def parseCore : List Char → List Char × List Char
  | [] => ([], [])
  | [c] => if isWordChar c then ([c], []) else ([], [c])
  | c :: d :: t' =>
    if isWordChar c then
      if isWordChar d then
        (c :: (parseCore (d :: t')).1, (parseCore (d :: t')).2)
      else if isJoinChar d && firstIsWord t' then
        (c :: d :: (parseCore t').1, (parseCore t').2)
      else ([c], d :: t')
    else ([], c :: d :: t')

/-- Source `word.match(REGEX.WORD_PARTS)`: the anchored match
`^([^\p{L}\p{N}]*)([\p{L}\p{N}]+(?:[-''][\p{L}\p{N}]+)*)([^\p{L}\p{N}]*)$`
decomposed as leading punctuation, core and trailing punctuation, or `none`
when the word has no such decomposition (core absent, or word characters
left over after the greedy core). -/
def wordParts (w : List Char) : Option (List Char × List Char × List Char) :=
  let p := w.takeWhile (fun c => !isWordChar c)
  match w.dropWhile (fun c => !isWordChar c) with
  | [] => none
  | c :: t =>
    let q := parseCore (c :: t)
    if q.2.all (fun c => !isWordChar c) then some (p, q.1, q.2) else none

/-- Source `core.split('-')`. -/
def splitHy : List Char → List (List Char)
  | [] => [[]]
  | c :: t =>
    if c = '-' then [] :: splitHy t
    else
      match splitHy t with
      | [] => [[c]]
      | h :: r => (c :: h) :: r

/-- Source `parts.join('-')`. -/
def joinHy : List (List Char) → List Char
  | [] => []
  | [x] => x
  | x :: y :: r => x ++ '-' :: joinHy (y :: r)

/-- Markup `` `<b>${part.slice(0, len)}</b>${part.slice(len)}` `` with
`len = getBoldLength(part.length)`. -/
def emphasize (core : List Char) : List Char :=
  '<' :: 'b' :: '>' ::
    (core.take (getBoldLength core.length) ++
     '<' :: '/' :: 'b' :: '>' :: core.drop (getBoldLength core.length))

/-- The per-part body of the hyphen loop in `processWord`: numeric parts and
single-character parts pass through, the rest are emphasized. -/
def ppPart (part : List Char) : List Char :=
  if !part.isEmpty && part.all isDigitChar then part
  else if 1 < part.length then emphasize part
  else part

/-- Source `processWord(word)`. -/
def processWord (w : List Char) : List Char :=
  if w.isEmpty then w
  else if shouldSkipWord w then w
  else
    match wordParts w with
    | none => w
    | some (p, core, s) =>
      if core.length < 2 then w
      else if core.contains '-' then p ++ joinHy ((splitHy core).map ppPart) ++ s
      else p ++ emphasize core ++ s

-- =========================================================================
-- Text transformer (source: `transformText`)
-- =========================================================================

/-- Maximal homogeneous runs of a string: the list of `(isWhitespaceRun,
run)` pairs produced by `text.split(/(\s+)/)` with empty artifacts removed;
concatenating the runs restores the string. -/
theorem dropWhile_length_le (p : Char → Bool) (l : List Char) :
    (l.dropWhile p).length ≤ l.length := by
  induction l with
  | nil => simp
  | cons c t ih =>
    rw [List.dropWhile_cons]
    split
    · exact le_trans ih (by simp)
    · simp

def runs : List Char → List (Bool × List Char)
  | [] => []
  | c :: cs =>
    (isSpaceChar c, c :: cs.takeWhile (fun x => isSpaceChar x == isSpaceChar c)) ::
      runs (cs.dropWhile (fun x => isSpaceChar x == isSpaceChar c))
termination_by l => l.length
decreasing_by
  simp only [List.length_cons]
  exact Nat.lt_succ_of_le (dropWhile_length_le _ _)

/-- Per-piece dispatch of `transformText`'s loop: whitespace runs are kept,
other runs go through `processWord`. -/
def emitRun (p : Bool × List Char) : List Char :=
  if p.1 then p.2 else processWord p.2

/-- Source `transformText(text)`: fast-path rejects for short or letterless text,
otherwise the per-token transformation with whitespace preserved. -/
def transformText (t : List Char) : List Char :=
  if t.length < 3 then t
  else if !(t.any isWordChar) then t
  else ((runs t).map emitRun).flatten

-- =========================================================================
-- Single-token evaluation helpers
-- =========================================================================

theorem skip_verbatim (w : List Char) (h : shouldSkipWord w = true) :
    processWord w = w := by
  simp [processWord, h]

theorem runs_single {l : List Char} (hne : l ≠ [])
    (h : ∀ c ∈ l, isSpaceChar c = false) : runs l = [(false, l)] := by
  cases l with
  | nil => exact absurd rfl hne
  | cons c cs =>
    have hc : isSpaceChar c = false := h c (by simp)
    have hall : ∀ x ∈ cs, (isSpaceChar x == isSpaceChar c) = true := by
      intro x hx
      rw [hc, h x (by simp [hx])]
      rfl
    have ht : cs.takeWhile (fun x => isSpaceChar x == isSpaceChar c) = cs :=
      List.takeWhile_eq_self_iff.mpr hall
    have hd : cs.dropWhile (fun x => isSpaceChar x == isSpaceChar c) = [] :=
      List.dropWhile_eq_nil_iff.mpr hall
    simp only [runs, ht, hd]
    rw [hc]

theorem transformText_single {l : List Char} (h3 : 3 ≤ l.length)
    (hw : l.any isWordChar = true) (hns : ∀ c ∈ l, isSpaceChar c = false) :
    transformText l = processWord l := by
  have hne : l ≠ [] := by
    intro h
    subst h
    simp at h3
  rw [transformText, if_neg (by omega), if_neg (by simp [hw]),
    runs_single hne hns]
  simp [emitRun]

-- =========================================================================
-- Claim C6 (exclusion classifier)
-- =========================================================================

/-- Claim C6 counterexample: the token `ftp:` begins with the protocol
prefix `ftp:` yet is 4 characters long, so it escapes the URL check (which
the source guards by `word.length > 4`) and is emphasized rather than
emitted verbatim.  The same happens to `tel:` and `www.`. -/
theorem url_short_token_counterexample :
    shouldSkipWord "ftp:".data = false ∧
    transformText "ftp:".data = "<b>f</b>tp:".data ∧
    transformText "ftp:".data ≠ "ftp:".data ∧
    transformText "www.".data = "<b>w</b>ww.".data := by
  refine ⟨by decide, ?_, ?_, ?_⟩
  · rw [transformText_single (by decide) (by decide) (by decide)]
    decide
  · rw [transformText_single (by decide) (by decide) (by decide)]
    decide
  · rw [transformText_single (by decide) (by decide) (by decide)]
    decide

/-- Claim C6 (amended): every token accepted by the exclusion classifier
`shouldSkipWord` — which applies the URL/protocol-prefix, version and UUID
rules only to tokens longer than 4 characters (so the bare 4-character
tokens `ftp:`, `tel:`, `www.` are emphasized, not excluded) and the
filename rule only to tokens shorter than 20 characters — is emitted
verbatim by the transformer; in particular the six example tokens are
returned unchanged. -/
theorem exclusion_verbatim_rule :
    (∀ w : List Char, shouldSkipWord w = true → processWord w = w) ∧
    transformText "https://example.com/path".data = "https://example.com/path".data ∧
    transformText "12,345.67%".data = "12,345.67%".data ∧
    transformText "v2.5.0".data = "v2.5.0".data ∧
    transformText "report.pdf".data = "report.pdf".data ∧
    transformText "12:30".data = "12:30".data ∧
    transformText "2024-01-15".data = "2024-01-15".data := by
  refine ⟨skip_verbatim, ?_, ?_, ?_, ?_, ?_, ?_⟩ <;>
    · rw [transformText_single (by decide) (by decide) (by decide)]
      exact skip_verbatim _ (by decide)

theorem exclusion_verbatim_rule_witness :
    processWord "12:30".data = "12:30".data :=
  exclusion_verbatim_rule.1 "12:30".data (by decide)

-- =========================================================================
-- Claim C7 (hyphen-joined compounds)
-- =========================================================================

/-- Hyphen-part rule as the claim words it: every part is emphasized under
the prefix-length rule, with only purely numeric parts passed through. -/
def ppPartClaim (part : List Char) : List Char :=
  if !part.isEmpty && part.all isDigitChar then part else emphasize part

/-- Claim C7 counterexample: in `x-ray` the single-character part `x` is
passed through unemphasized by the source (its hyphen loop only emphasizes
parts of length at least 2), while the claim's rule — each non-numeric part
emphasized under the prefix-length rule — would mark it. -/
theorem hyphen_single_char_counterexample :
    processWord "x-ray".data = "x-<b>r</b>ay".data ∧
    joinHy ((splitHy "x-ray".data).map ppPartClaim) = "<b>x</b>-<b>r</b>ay".data ∧
    processWord "x-ray".data ≠ joinHy ((splitHy "x-ray".data).map ppPartClaim) := by
  decide

/-- Claim C7 (amended): for every token whose core is hyphen-joined, the
transformer splits the core on hyphens, passes purely numeric parts and
single-character parts through unmodified, emphasizes every other part
under the same prefix-length rule, and rejoins the parts with hyphens
between the token's original leading and trailing punctuation; rejoining
the unprocessed parts restores the core exactly. -/
theorem hyphen_rule (w p core s : List Char)
    (hw : wordParts w = some (p, core, s))
    (hskip : shouldSkipWord w = false) (hcl : 2 ≤ core.length)
    (hc : core.contains '-' = true) :
    processWord w = p ++ joinHy ((splitHy core).map ppPart) ++ s ∧
    (∀ q : List Char,
      (q.length ≤ 1 → ppPart q = q) ∧
      (q.all isDigitChar = true → ppPart q = q) ∧
      (1 < q.length → q.all isDigitChar = false → ppPart q = emphasize q)) ∧
    processWord "self-taught".data = "<b>se</b>lf-<b>tau</b>ght".data := by
  refine ⟨?_, ?_, by decide⟩
  · have hwne : w.isEmpty = false := by
      cases w with
      | nil => simp [wordParts] at hw
      | cons c t => rfl
    rw [processWord]
    simp only [hwne, hskip, hw, Bool.false_eq_true, if_false]
    rw [if_neg (by omega), if_pos hc]
  · intro q
    refine ⟨?_, ?_, ?_⟩
    · intro hq
      rw [ppPart]
      split
      · rfl
      · rw [if_neg (by omega)]
    · intro hq
      rw [ppPart]
      split
      · rfl
      · next hne =>
        rw [if_neg ?_]
        intro hlen
        rw [hq] at hne
        cases q with
        | nil => simp at hlen
        | cons a t => simp at hne
    · intro h1 h2
      rw [ppPart, if_neg (by simp [h2]), if_pos h1]

theorem hyphen_rule_witness :
    processWord "x-ray".data =
      [] ++ joinHy ((splitHy "x-ray".data).map ppPart) ++ [] :=
  (hyphen_rule "x-ray".data [] "x-ray".data [] (by decide) (by decide)
    (by decide) (by decide)).1

-- =========================================================================
-- Markup stripping (spec: reversion reads rendered text, i.e. the output
-- with every inserted emphasis tag removed)
-- =========================================================================

/-- Recognizer for an inserted emphasis tag at the head of the string:
the opener or the closer. -/
def startsTag : List Char → Bool
  | '<' :: 'b' :: '>' :: _ => true
  | '<' :: '/' :: 'b' :: '>' :: _ => true
  | _ => false

/-- Removal of every emphasis tag: scans the string and deletes each
occurrence of the opener and the closer, keeping all other characters. -/
def stripMarkup : List Char → List Char
  | [] => []
  | c :: rest =>
    if (c :: rest).take 3 = ['<', 'b', '>'] then stripMarkup (rest.drop 2)
    else if (c :: rest).take 4 = ['<', '/', 'b', '>'] then stripMarkup (rest.drop 3)
    else c :: stripMarkup rest
termination_by l => l.length
decreasing_by
  all_goals simp only [List.length_cons, List.length_drop]
  all_goals omega

/-- Absence of any emphasis-tag occurrence: the reading of "plain text". -/
def tagFreeB : List Char → Bool
  | [] => true
  | c :: t => !startsTag (c :: t) && tagFreeB t

theorem startsTag_eq_true_iff (l : List Char) : startsTag l = true ↔
    (∃ t, l = '<' :: 'b' :: '>' :: t) ∨
    (∃ t, l = '<' :: '/' :: 'b' :: '>' :: t) := by
  constructor
  · intro h
    rw [startsTag.eq_def] at h
    split at h
    · next t => exact Or.inl ⟨t, rfl⟩
    · next t => exact Or.inr ⟨t, rfl⟩
    · exact absurd h (by simp)
  · rintro (⟨t, rfl⟩ | ⟨t, rfl⟩) <;> rfl

theorem startsTag_ne_lt {c : Char} (h : c ≠ '<') (r : List Char) :
    startsTag (c :: r) = false := by
  cases hx : startsTag (c :: r) with
  | false => rfl
  | true =>
    rcases (startsTag_eq_true_iff _).mp hx with ⟨t, het⟩ | ⟨t, het⟩ <;>
      · injection het with h1 h2
        exact absurd h1 h

theorem stripMarkup_nil : stripMarkup [] = [] := by
  rw [stripMarkup]

theorem stripMarkup_open (r : List Char) :
    stripMarkup ('<' :: 'b' :: '>' :: r) = stripMarkup r := by
  rw [stripMarkup,
    if_pos (show List.take 3 ('<' :: 'b' :: '>' :: r) = ['<', 'b', '>'] from rfl)]
  norm_num

theorem stripMarkup_close (r : List Char) :
    stripMarkup ('<' :: '/' :: 'b' :: '>' :: r) = stripMarkup r := by
  rw [stripMarkup, if_neg (by simp),
    if_pos (show List.take 4 ('<' :: '/' :: 'b' :: '>' :: r) = ['<', '/', 'b', '>'] from rfl)]
  norm_num

theorem stripMarkup_cons_of_not {c : Char} {r : List Char}
    (h : startsTag (c :: r) = false) :
    stripMarkup (c :: r) = c :: stripMarkup r := by
  have h1 : ¬ (c :: r).take 3 = ['<', 'b', '>'] := by
    intro heq
    have he : c :: r = '<' :: 'b' :: '>' :: (c :: r).drop 3 := by
      conv_lhs => rw [← List.take_append_drop 3 (c :: r)]
      rw [heq]
      rfl
    rw [(startsTag_eq_true_iff (c :: r)).mpr (Or.inl ⟨(c :: r).drop 3, he⟩)] at h
    cases h
  have h2 : ¬ (c :: r).take 4 = ['<', '/', 'b', '>'] := by
    intro heq
    have he : c :: r = '<' :: '/' :: 'b' :: '>' :: (c :: r).drop 4 := by
      conv_lhs => rw [← List.take_append_drop 4 (c :: r)]
      rw [heq]
      rfl
    rw [(startsTag_eq_true_iff (c :: r)).mpr (Or.inr ⟨(c :: r).drop 4, he⟩)] at h
    cases h
  rw [stripMarkup, if_neg h1, if_neg h2]

theorem stripMarkup_append_of_nostart (u z : List Char)
    (h : ∀ i, i < u.length → startsTag (u.drop i ++ z) = false) :
    stripMarkup (u ++ z) = u ++ stripMarkup z := by
  induction u with
  | nil => simp
  | cons c t ih =>
    have h0 : startsTag (c :: (t ++ z)) = false := by
      have h1 := h 0 (by simp)
      simpa using h1
    rw [List.cons_append, stripMarkup_cons_of_not h0, ih]
    · rfl
    · intro i hi
      have h2 := h (i + 1) (by simp only [List.length_cons]; omega)
      simpa using h2

theorem startsTag_append_right {x : List Char} (y : List Char)
    (h : startsTag x = true) : startsTag (x ++ y) = true := by
  rcases (startsTag_eq_true_iff x).mp h with ⟨t, rfl⟩ | ⟨t, rfl⟩ <;> rfl

theorem tagFreeB_startsTag_drop {l : List Char} (h : tagFreeB l = true) :
    ∀ i, startsTag (l.drop i) = false := by
  induction l with
  | nil =>
    intro i
    rw [List.drop_nil]
    rfl
  | cons c t ih =>
    rw [tagFreeB, Bool.and_eq_true, Bool.not_eq_true'] at h
    intro i
    cases i with
    | zero => exact h.1
    | succ j =>
      rw [List.drop_succ_cons]
      exact ih h.2 j

theorem tagFreeB_of_drops {l : List Char}
    (h : ∀ i, startsTag (l.drop i) = false) : tagFreeB l = true := by
  induction l with
  | nil => rfl
  | cons c t ih =>
    rw [tagFreeB, Bool.and_eq_true, Bool.not_eq_true']
    exact ⟨by simpa using h 0, ih (fun i => by simpa using h (i + 1))⟩

theorem tagFreeB_append_left {x y : List Char} (h : tagFreeB (x ++ y) = true) :
    tagFreeB x = true := by
  apply tagFreeB_of_drops
  intro i
  by_cases hi : i < x.length
  · cases hx : startsTag (x.drop i) with
    | false => rfl
    | true =>
      have h2 : startsTag ((x ++ y).drop i) = true := by
        rw [List.drop_append_of_le_length (by omega)]
        exact startsTag_append_right y hx
      rw [tagFreeB_startsTag_drop h i] at h2
      cases h2
  · rw [List.drop_eq_nil_iff.mpr (by omega)]
    rfl

theorem tagFreeB_append_right {x y : List Char} (h : tagFreeB (x ++ y) = true) :
    tagFreeB y = true := by
  apply tagFreeB_of_drops
  intro i
  have h2 := tagFreeB_startsTag_drop h (x.length + i)
  rwa [List.drop_append] at h2

theorem stripMarkup_tagFree {l : List Char} (h : tagFreeB l = true) :
    stripMarkup l = l := by
  have h2 := stripMarkup_append_of_nostart l [] ?_
  · simpa [stripMarkup_nil] using h2
  · intro i hi
    have := tagFreeB_startsTag_drop h i
    simpa using this

theorem startsTag_append_headSpace {u z : List Char} (hu : u ≠ [])
    (ht : startsTag u = false)
    (hz : ∀ c, z.head? = some c → isSpaceChar c = true) :
    startsTag (u ++ z) = false := by
  cases hx : startsTag (u ++ z) with
  | false => rfl
  | true =>
    exfalso
    rcases (startsTag_eq_true_iff _).mp hx with ⟨t, het⟩ | ⟨t, het⟩
    · rcases u with _ | ⟨c, _ | ⟨d, _ | ⟨e, t'⟩⟩⟩
      · exact hu rfl
      · simp only [List.cons_append, List.nil_append] at het
        injection het with h1 h2
        subst h2
        exact (space_ne_chars (hz 'b' rfl)).2.2.2 rfl
      · simp only [List.cons_append, List.nil_append] at het
        injection het with h1 h2
        injection h2 with h3 h4
        subst h4
        exact (space_ne_chars (hz '>' rfl)).2.1 rfl
      · simp only [List.cons_append] at het
        injection het with h1 h2
        injection h2 with h3 h4
        injection h4 with h5 h6
        subst h1; subst h3; subst h5
        rw [(startsTag_eq_true_iff _).mpr (Or.inl ⟨t', rfl⟩)] at ht
        exact Bool.noConfusion ht
    · rcases u with _ | ⟨c, _ | ⟨d, _ | ⟨e, t'⟩⟩⟩
      · exact hu rfl
      · simp only [List.cons_append, List.nil_append] at het
        injection het with h1 h2
        subst h2
        exact (space_ne_chars (hz '/' rfl)).2.2.1 rfl
      · simp only [List.cons_append, List.nil_append] at het
        injection het with h1 h2
        injection h2 with h3 h4
        subst h4
        exact (space_ne_chars (hz 'b' rfl)).2.2.2 rfl
      · simp only [List.cons_append] at het
        injection het with h1 h2
        injection h2 with h3 h4
        injection h4 with h5 h6
        subst h1; subst h3; subst h5
        rcases t' with _ | ⟨f, t''⟩
        · simp only [List.nil_append] at h6
          subst h6
          exact (space_ne_chars (hz '>' rfl)).2.1 rfl
        · simp only [List.cons_append] at h6
          injection h6 with h7 h8
          subst h7
          rw [(startsTag_eq_true_iff _).mpr (Or.inr ⟨t'', rfl⟩)] at ht
          exact Bool.noConfusion ht

theorem startsTag_append_noB {u z : List Char} (hu : u ≠ [])
    (hb : ∀ c ∈ u, c ≠ 'b')
    (hz1 : ∀ t, z ≠ 'b' :: '>' :: t)
    (hz2 : ∀ t, z ≠ '/' :: 'b' :: '>' :: t) :
    startsTag (u ++ z) = false := by
  cases hx : startsTag (u ++ z) with
  | false => rfl
  | true =>
    exfalso
    rcases (startsTag_eq_true_iff _).mp hx with ⟨t, het⟩ | ⟨t, het⟩
    · rcases u with _ | ⟨c, _ | ⟨d, _ | ⟨e, t'⟩⟩⟩
      · exact hu rfl
      · simp only [List.cons_append, List.nil_append] at het
        injection het with h1 h2
        exact hz1 t h2
      · simp only [List.cons_append, List.nil_append] at het
        injection het with h1 h2
        injection h2 with h3 h4
        exact hb d (by simp) h3
      · simp only [List.cons_append] at het
        injection het with h1 h2
        injection h2 with h3 h4
        exact hb d (by simp) h3
    · rcases u with _ | ⟨c, _ | ⟨d, _ | ⟨e, t'⟩⟩⟩
      · exact hu rfl
      · simp only [List.cons_append, List.nil_append] at het
        injection het with h1 h2
        exact hz2 t h2
      · simp only [List.cons_append, List.nil_append] at het
        injection het with h1 h2
        injection h2 with h3 h4
        exact hz1 t h4
      · simp only [List.cons_append] at het
        injection het with h1 h2
        injection h2 with h3 h4
        injection h4 with h5 h6
        exact hb e (by simp) h5

theorem drop_ne_nil_of_lt {u : List Char} {i : Nat} (hi : i < u.length) :
    u.drop i ≠ [] := by
  intro h
  rw [List.drop_eq_nil_iff] at h
  omega

theorem stripMarkup_append_no_lt {u z : List Char} (h : ∀ c ∈ u, c ≠ '<') :
    stripMarkup (u ++ z) = u ++ stripMarkup z := by
  apply stripMarkup_append_of_nostart
  intro i hi
  obtain ⟨c, t, hct⟩ : ∃ c t, u.drop i = c :: t := by
    cases hd : u.drop i with
    | nil => exact absurd hd (drop_ne_nil_of_lt hi)
    | cons c t => exact ⟨c, t, rfl⟩
  rw [hct, List.cons_append]
  apply startsTag_ne_lt
  apply h
  apply List.mem_of_mem_drop (n := i)
  rw [hct]
  exact List.mem_cons_self c t

theorem stripMarkup_append_tagFree {u z : List Char} (hu : tagFreeB u = true)
    (hz : ∀ c, z.head? = some c → isSpaceChar c = true) :
    stripMarkup (u ++ z) = u ++ stripMarkup z := by
  apply stripMarkup_append_of_nostart
  intro i hi
  exact startsTag_append_headSpace (drop_ne_nil_of_lt hi)
    (tagFreeB_startsTag_drop hu i) hz

theorem stripMarkup_append_noB {u z : List Char}
    (hb : ∀ c ∈ u, c ≠ 'b')
    (hz1 : ∀ t, z ≠ 'b' :: '>' :: t)
    (hz2 : ∀ t, z ≠ '/' :: 'b' :: '>' :: t) :
    stripMarkup (u ++ z) = u ++ stripMarkup z := by
  apply stripMarkup_append_of_nostart
  intro i hi
  apply startsTag_append_noB (drop_ne_nil_of_lt hi) ?_ hz1 hz2
  intro c hc
  exact hb c (List.mem_of_mem_drop hc)

theorem parseCore_append : ∀ l : List Char,
    (parseCore l).1 ++ (parseCore l).2 = l
  | [] => rfl
  | [c] => by
    rw [parseCore]
    split <;> rfl
  | c :: d :: t' => by
    rw [parseCore]
    split
    · split
      · simp only [List.cons_append]
        rw [parseCore_append (d :: t')]
      · split
        · simp only [List.cons_append]
          rw [parseCore_append t']
        · rfl
    · rfl

theorem parseCore_chars : ∀ l : List Char, ∀ x ∈ (parseCore l).1,
    isWordChar x = true ∨ isJoinChar x = true
  | [] => by
    intro x hx
    simp [parseCore] at hx
  | [c] => by
    intro x hx
    rw [parseCore] at hx
    split at hx
    · next h =>
      simp only [List.mem_singleton] at hx
      subst hx
      exact Or.inl h
    · simp at hx
  | c :: d :: t' => by
    intro x hx
    rw [parseCore] at hx
    split at hx
    · next hc =>
      split at hx
      · simp only [List.mem_cons] at hx
        rcases hx with rfl | hx
        · exact Or.inl hc
        · exact parseCore_chars (d :: t') x hx
      · split at hx
        · next hj =>
          simp only [List.mem_cons] at hx
          rcases hx with rfl | rfl | hx
          · exact Or.inl hc
          · exact Or.inr (Bool.and_eq_true .. ▸ hj).1
          · exact parseCore_chars t' x hx
        · simp only [List.mem_singleton] at hx
          subst hx
          exact Or.inl hc
    · simp at hx

theorem parseCore_cons_word {c : Char} {t : List Char}
    (h : isWordChar c = true) : ∃ x, (parseCore (c :: t)).1 = c :: x := by
  cases t with
  | nil =>
    rw [parseCore, if_pos h]
    exact ⟨[], rfl⟩
  | cons d t' =>
    rw [parseCore, if_pos h]
    split
    · exact ⟨_, rfl⟩
    · split
      · exact ⟨_, rfl⟩
      · exact ⟨[], rfl⟩

theorem dropWhile_head_not {p : Char → Bool} {l : List Char} {c : Char}
    {t : List Char} (h : l.dropWhile p = c :: t) : p c = false := by
  have h2 := List.head?_dropWhile_not p l
  rw [h] at h2
  simpa using h2

theorem wordParts_some {w p core s : List Char}
    (h : wordParts w = some (p, core, s)) :
    w = p ++ core ++ s ∧
    (∀ c ∈ p, isWordChar c = false) ∧
    (∀ c ∈ core, isWordChar c = true ∨ isJoinChar c = true) ∧
    (∀ c ∈ s, isWordChar c = false) ∧
    core ≠ [] := by
  unfold wordParts at h
  cases hd : w.dropWhile (fun c => !isWordChar c) with
  | nil =>
    rw [hd] at h
    exact absurd h (by simp)
  | cons c t =>
    rw [hd] at h
    dsimp only at h
    split at h
    · next hall =>
      injection h with h'
      rw [Prod.mk.injEq, Prod.mk.injEq] at h'
      obtain ⟨h1, h2, h3⟩ := h'
      subst h1
      subst h2
      subst h3
      have hcw : isWordChar c = true := by
        have := dropWhile_head_not hd
        simpa using this
      refine ⟨?_, ?_, ?_, ?_, ?_⟩
      · calc w = w.takeWhile (fun c => !isWordChar c) ++
              w.dropWhile (fun c => !isWordChar c) :=
            (List.takeWhile_append_dropWhile _ _).symm
        _ = w.takeWhile (fun c => !isWordChar c) ++ (c :: t) := by rw [hd]
        _ = w.takeWhile (fun c => !isWordChar c) ++
              ((parseCore (c :: t)).1 ++ (parseCore (c :: t)).2) := by
            rw [parseCore_append]
        _ = w.takeWhile (fun c => !isWordChar c) ++
              (parseCore (c :: t)).1 ++ (parseCore (c :: t)).2 := by
            rw [List.append_assoc]
      · intro x hx
        have := List.mem_takeWhile_imp hx
        simpa using this
      · exact parseCore_chars (c :: t)
      · intro x hx
        rw [List.all_eq_true] at hall
        have := hall x hx
        simpa using this
      · obtain ⟨y, hy⟩ := parseCore_cons_word (t := t) hcw
        rw [hy]
        simp
    · exact absurd h (by simp)

-- =========================================================================
-- Hyphen split/join support
-- =========================================================================

theorem splitHy_ne_nil : ∀ l : List Char, splitHy l ≠ []
  | [] => by simp [splitHy]
  | c :: t => by
    rw [splitHy]
    split
    · simp
    · split <;> simp

theorem joinHy_cons_ne {q : List Char} {X : List (List Char)} (h : X ≠ []) :
    joinHy (q :: X) = q ++ '-' :: joinHy X := by
  cases X with
  | nil => exact absurd rfl h
  | cons y r => rfl

theorem joinHy_cons_cons (c : Char) (h : List Char) (r : List (List Char)) :
    joinHy ((c :: h) :: r) = c :: joinHy (h :: r) := by
  cases r with
  | nil => rfl
  | cons y r' => rfl

theorem joinHy_splitHy : ∀ l : List Char, joinHy (splitHy l) = l
  | [] => rfl
  | c :: t => by
    rw [splitHy]
    split
    · next hc =>
      rw [joinHy_cons_ne (splitHy_ne_nil t), joinHy_splitHy t]
      simp [hc]
    · next hc =>
      split
      · next hnil => exact absurd hnil (splitHy_ne_nil t)
      · next hh rr heq =>
        rw [joinHy_cons_cons, ← heq, joinHy_splitHy t]

theorem splitHy_mem_chars : ∀ (l q : List Char), q ∈ splitHy l →
    ∀ x ∈ q, x ∈ l ∧ x ≠ '-'
  | [] => by
    intro q hq x hx
    simp only [splitHy, List.mem_singleton] at hq
    subst hq
    simp at hx
  | c :: t => by
    intro q hq x hx
    rw [splitHy] at hq
    split at hq
    · simp only [List.mem_cons] at hq
      rcases hq with rfl | hq
      · simp at hx
      · have h2 := splitHy_mem_chars t q hq x hx
        exact ⟨List.mem_cons_of_mem _ h2.1, h2.2⟩
    · next hc =>
      split at hq
      · next hnil =>
        simp only [List.mem_singleton] at hq
        subst hq
        simp only [List.mem_singleton] at hx
        subst hx
        exact ⟨by simp, hc⟩
      · next hh rr heq =>
        simp only [List.mem_cons] at hq
        rcases hq with rfl | hq
        · simp only [List.mem_cons] at hx
          rcases hx with rfl | hx
          · exact ⟨by simp, hc⟩
          · have h2 := splitHy_mem_chars t hh (by rw [heq]; simp) x hx
            exact ⟨List.mem_cons_of_mem _ h2.1, h2.2⟩
        · have h2 := splitHy_mem_chars t q (by rw [heq]; simp [hq]) x hx
          exact ⟨List.mem_cons_of_mem _ h2.1, h2.2⟩

theorem splitHy_two {l : List Char} (h : l.contains '-' = true) :
    ∃ q1 q2 r, splitHy l = q1 :: q2 :: r := by
  induction l with
  | nil => simp at h
  | cons c t ih =>
    rw [splitHy]
    split
    · obtain ⟨y, r, hyr⟩ : ∃ y r, splitHy t = y :: r := by
        cases hs : splitHy t with
        | nil => exact absurd hs (splitHy_ne_nil t)
        | cons y r => exact ⟨y, r, rfl⟩
      exact ⟨[], y, r, by rw [hyr]⟩
    · next hc =>
      have h' : t.contains '-' = true := by
        simp only [List.contains_cons, Bool.or_eq_true, beq_iff_eq] at h
        rcases h with h | h
        · exact absurd h.symm hc
        · exact h
      obtain ⟨q1, q2, r, hqr⟩ := ih h'
      split
      · next hnil =>
        rw [hnil] at hqr
        cases hqr
      · next hh rr heq =>
        rw [heq] at hqr
        injection hqr with hq1 hq2
        exact ⟨c :: hh, q2, r, by rw [hq2]⟩

-- =========================================================================
-- Per-part facts
-- =========================================================================

theorem emphasize_length {q : List Char} (h : 2 ≤ q.length) :
    (emphasize q).length = q.length + 7 := by
  have hk1 := getBoldLength_pos q.length
  have hk2 := getBoldLength_lt q.length h
  simp only [emphasize, List.length_cons, List.length_append,
    List.length_take, List.length_drop]
  omega

theorem ppPart_cases (q : List Char) :
    ppPart q = q ∨ (2 ≤ q.length ∧ ppPart q = emphasize q) := by
  rw [ppPart]
  split
  · exact Or.inl rfl
  · split
    · next h => exact Or.inr ⟨by omega, rfl⟩
    · exact Or.inl rfl

theorem notWord_ne_b {c : Char} (h : isWordChar c = false) : c ≠ 'b' := by
  intro hc
  subst hc
  exact (by decide : isWordChar 'b' ≠ false) h

theorem wordJoin_ne_special {c : Char}
    (h : isWordChar c = true ∨ isJoinChar c = true) :
    c ≠ '<' ∧ c ≠ '>' ∧ c ≠ '/' := by
  refine ⟨?_, ?_, ?_⟩ <;>
    · intro hc
      subst hc
      revert h
      decide

-- =========================================================================
-- Stripping each emitted piece
-- =========================================================================

theorem strip_emphasize_append {q z : List Char} (hq : ∀ c ∈ q, c ≠ '<') :
    stripMarkup (emphasize q ++ z) = q ++ stripMarkup z := by
  have ha : ∀ c ∈ q.take (getBoldLength q.length), c ≠ '<' :=
    fun c hc => hq c (List.mem_of_mem_take hc)
  have hb : ∀ c ∈ q.drop (getBoldLength q.length), c ≠ '<' :=
    fun c hc => hq c (List.mem_of_mem_drop hc)
  simp only [emphasize, List.cons_append, List.append_assoc]
  rw [stripMarkup_open, stripMarkup_append_no_lt ha, stripMarkup_close,
    stripMarkup_append_no_lt hb, ← List.append_assoc, List.take_append_drop]

theorem strip_ppPart_append {q z : List Char} (hq : ∀ c ∈ q, c ≠ '<') :
    stripMarkup (ppPart q ++ z) = q ++ stripMarkup z := by
  rcases ppPart_cases q with h | ⟨h2, h⟩
  · rw [h]
    exact stripMarkup_append_no_lt hq
  · rw [h]
    exact strip_emphasize_append hq

theorem strip_joinHy_parts : ∀ (parts : List (List Char)) (z : List Char),
    (∀ q ∈ parts, ∀ x ∈ q, x ≠ '<') →
    stripMarkup (joinHy (parts.map ppPart) ++ z) = joinHy parts ++ stripMarkup z
  | [], z, _ => by simp [joinHy]
  | [q], z, hch => by
    show stripMarkup (ppPart q ++ z) = q ++ stripMarkup z
    exact strip_ppPart_append (hch q (by simp))
  | q :: q2 :: rest', z, hch => by
    have ih := strip_joinHy_parts (q2 :: rest') z
      (fun q' hq' => hch q' (List.mem_cons_of_mem _ hq'))
    simp only [List.map_cons] at ih ⊢
    rw [joinHy_cons_ne (by simp)]
    simp only [List.append_assoc, List.cons_append]
    rw [strip_ppPart_append (hch q (by simp)),
      stripMarkup_cons_of_not (startsTag_ne_lt (by decide) _), ih,
      joinHy_cons_ne (show q2 :: rest' ≠ [] by simp)]
    simp [List.append_assoc]

theorem emphasize_append_head_ne (q X : List Char) :
    (∀ t, emphasize q ++ X ≠ 'b' :: '>' :: t) ∧
    (∀ t, emphasize q ++ X ≠ '/' :: 'b' :: '>' :: t) := by
  constructor <;>
    · intro t ht
      simp only [emphasize, List.cons_append] at ht
      injection ht with h1 _
      exact absurd h1 (by decide)

theorem z_head_ne_of_space {z : List Char}
    (hz : ∀ c, z.head? = some c → isSpaceChar c = true) :
    (∀ t, z ≠ 'b' :: '>' :: t) ∧ (∀ t, z ≠ '/' :: 'b' :: '>' :: t) := by
  constructor
  · intro t ht
    subst ht
    exact (space_ne_chars (hz _ rfl)).2.2.2 rfl
  · intro t ht
    subst ht
    exact (space_ne_chars (hz _ rfl)).2.2.1 rfl

theorem join_parts_head_ne {q1 w : List Char}
    (hq1 : ∀ x ∈ q1, isWordChar x = true ∨ isJoinChar x = true) :
    (∀ t, ppPart q1 ++ '-' :: w ≠ 'b' :: '>' :: t) ∧
    (∀ t, ppPart q1 ++ '-' :: w ≠ '/' :: 'b' :: '>' :: t) := by
  rcases ppPart_cases q1 with hpp | ⟨h2, hpp⟩
  · rw [hpp]
    cases q1 with
    | nil =>
      constructor <;>
        · intro t ht
          simp only [List.nil_append] at ht
          injection ht with h1 _
          exact absurd h1 (by decide)
    | cons c t1 =>
      constructor
      · intro t ht
        simp only [List.cons_append] at ht
        injection ht with h1 h2
        subst h1
        cases t1 with
        | nil =>
          simp only [List.nil_append] at h2
          injection h2 with h3 _
          exact absurd h3 (by decide)
        | cons d t2 =>
          simp only [List.cons_append] at h2
          injection h2 with h3 _
          exact (wordJoin_ne_special (hq1 d (by simp))).2.1 h3
      · intro t ht
        simp only [List.cons_append] at ht
        injection ht with h1 _
        exact (wordJoin_ne_special (hq1 c (by simp))).2.2 h1
  · rw [hpp]
    exact emphasize_append_head_ne q1 ('-' :: w)

theorem strip_processWord {x z : List Char} (htf : tagFreeB x = true)
    (hz : ∀ c, z.head? = some c → isSpaceChar c = true) :
    stripMarkup (processWord x ++ z) = x ++ stripMarkup z := by
  have hverb : stripMarkup (x ++ z) = x ++ stripMarkup z :=
    stripMarkup_append_tagFree htf hz
  obtain ⟨hzb, hzs⟩ := z_head_ne_of_space hz
  rw [processWord]
  split
  · exact hverb
  · split
    · exact hverb
    · cases hwp : wordParts x with
      | none => exact hverb
      | some trip =>
        obtain ⟨p, core, s⟩ := trip
        obtain ⟨hxe, hp, hcore, hs', hcne⟩ := wordParts_some hwp
        dsimp only
        split
        · exact hverb
        · next hlen =>
          have hpb : ∀ c ∈ p, c ≠ 'b' := fun c hc => notWord_ne_b (hp c hc)
          have hsb : ∀ c ∈ s, c ≠ 'b' := fun c hc => notWord_ne_b (hs' c hc)
          have hclt : ∀ c ∈ core, c ≠ '<' :=
            fun c hc => (wordJoin_ne_special (hcore c hc)).1
          split
          · next hhy =>
            obtain ⟨q1, q2, r, hparts⟩ := splitHy_two hhy
            have hq1ch : ∀ y ∈ q1, isWordChar y = true ∨ isJoinChar y = true := by
              intro y hy
              exact hcore y
                (splitHy_mem_chars core q1 (by rw [hparts]; simp) y hy).1
            rw [hxe]
            simp only [List.append_assoc]
            rw [stripMarkup_append_noB hpb ?_ ?_]
            · rw [strip_joinHy_parts (splitHy core) (s ++ z)
                (fun q hq y hy => (wordJoin_ne_special (hcore y
                  (splitHy_mem_chars core q hq y hy).1)).1),
                joinHy_splitHy, stripMarkup_append_noB hsb hzb hzs]
            · rw [hparts]
              simp only [List.map_cons]
              rw [joinHy_cons_ne (by simp)]
              simp only [List.append_assoc, List.cons_append]
              exact (join_parts_head_ne hq1ch).1
            · rw [hparts]
              simp only [List.map_cons]
              rw [joinHy_cons_ne (by simp)]
              simp only [List.append_assoc, List.cons_append]
              exact (join_parts_head_ne hq1ch).2
          · next hhy =>
            rw [hxe]
            simp only [List.append_assoc]
            rw [stripMarkup_append_noB hpb
                (emphasize_append_head_ne core (s ++ z)).1
                (emphasize_append_head_ne core (s ++ z)).2,
              strip_emphasize_append hclt,
              stripMarkup_append_noB hsb hzb hzs]

-- =========================================================================
-- Whole-string round trip
-- =========================================================================

theorem emitRun_ws {b : Bool} {r : List Char} (h : b = true) :
    emitRun (b, r) = r := by
  simp [emitRun, h]

theorem emitRun_tok {b : Bool} {r : List Char} (h : b = false) :
    emitRun (b, r) = processWord r := by
  simp [emitRun, h]

theorem space_ne_lt {c : Char} (h : isSpaceChar c = true) : c ≠ '<' := by
  intro hc
  exact (space_ne_chars h).1 (congrArg Char.toNat hc)

theorem emit_head_space {m : List Char}
    (hm : ∀ c, m.head? = some c → isSpaceChar c = true) :
    ∀ c, (((runs m).map emitRun).flatten).head? = some c →
      isSpaceChar c = true := by
  cases m with
  | nil =>
    intro c hc
    rw [show runs [] = [] from by rw [runs]] at hc
    simp at hc
  | cons d m' =>
    have hd : isSpaceChar d = true := hm d rfl
    intro c hc
    rw [runs] at hc
    simp only [List.map_cons, List.flatten_cons] at hc
    rw [emitRun_ws hd] at hc
    simp only [List.cons_append, List.head?_cons] at hc
    injection hc with h1
    rw [← h1]
    exact hd

theorem strip_emit (l : List Char) : tagFreeB l = true →
    stripMarkup (((runs l).map emitRun).flatten) = l := by
  induction l using runs.induct with
  | case1 =>
    intro htf
    rw [show runs [] = [] from by rw [runs]]
    simp [stripMarkup_nil]
  | case2 c cs ih =>
    intro htf
    rw [runs]
    simp only [List.map_cons, List.flatten_cons]
    have hl : c :: cs =
        (c :: cs.takeWhile (fun x => isSpaceChar x == isSpaceChar c)) ++
          cs.dropWhile (fun x => isSpaceChar x == isSpaceChar c) := by
      rw [List.cons_append, List.takeWhile_append_dropWhile]
    have htf1 : tagFreeB
        (c :: cs.takeWhile (fun x => isSpaceChar x == isSpaceChar c)) = true :=
      tagFreeB_append_left (by rw [← hl]; exact htf)
    have htf2 : tagFreeB
        (cs.dropWhile (fun x => isSpaceChar x == isSpaceChar c)) = true :=
      tagFreeB_append_right (x := c :: cs.takeWhile (fun x => isSpaceChar x == isSpaceChar c))
        (by rw [← hl]; exact htf)
    have hrest := ih htf2
    by_cases hb : isSpaceChar c = true
    · have hrun : ∀ x ∈ c :: cs.takeWhile (fun x => isSpaceChar x == isSpaceChar c),
          isSpaceChar x = true := by
        intro x hx
        rcases List.mem_cons.mp hx with rfl | hx
        · exact hb
        · have h2 := List.mem_takeWhile_imp hx
          rw [hb] at h2
          simpa using h2
      rw [emitRun_ws hb,
        stripMarkup_append_no_lt (fun x hx => space_ne_lt (hrun x hx)), hrest]
      exact hl.symm
    · have hb' : isSpaceChar c = false := by simpa using hb
      rw [emitRun_tok hb']
      have hhead : ∀ d,
          (((runs (cs.dropWhile fun x => isSpaceChar x == isSpaceChar c)).map
            emitRun).flatten).head? = some d → isSpaceChar d = true := by
        apply emit_head_space
        intro d hd2
        obtain ⟨t, ht⟩ : ∃ t,
            cs.dropWhile (fun x => isSpaceChar x == isSpaceChar c) = d :: t := by
          cases hdw : cs.dropWhile (fun x => isSpaceChar x == isSpaceChar c) with
          | nil => rw [hdw] at hd2; cases hd2
          | cons y t =>
            rw [hdw] at hd2
            injection hd2 with h1
            exact ⟨t, by rw [h1]⟩
        have h3 := dropWhile_head_not ht
        rw [hb'] at h3
        simpa using h3
      rw [strip_processWord htf1 hhead, hrest]
      exact hl.symm

/-- Claim C1: for every plain-text input string (one containing no
occurrence of the emphasis tags), stripping all emphasis markup from the
transformer's output yields exactly the input: the transformer only wraps
substrings and never alters, reorders, or drops characters. -/
theorem transform_roundtrip (T : List Char) (h : tagFreeB T = true) :
    stripMarkup (transformText T) = T := by
  rw [transformText]
  split
  · exact stripMarkup_tagFree h
  · split
    · exact stripMarkup_tagFree h
    · exact strip_emit T h

theorem transform_roundtrip_witness :
    tagFreeB "Bionic reading helps!".data = true ∧
    stripMarkup (transformText "Bionic reading helps!".data) =
      "Bionic reading helps!".data :=
  ⟨by decide, transform_roundtrip _ (by decide)⟩

-- =========================================================================
-- Idempotence: transformed tokens never re-match the word pattern
-- =========================================================================

theorem runs_nil : runs [] = [] := by
  rw [runs]

theorem wordParts_none_of_split {u v : List Char}
    (hu : ∃ c ∈ u, isWordChar c = true) (hv : ∃ c ∈ v, isWordChar c = true) :
    wordParts (u ++ '>' :: v) = none := by
  unfold wordParts
  obtain ⟨cu, hcu, hcuw⟩ := hu
  obtain ⟨cv, hcv, hcvw⟩ := hv
  obtain ⟨d, t, hdt⟩ : ∃ d t, u.dropWhile (fun c => !isWordChar c) = d :: t := by
    cases hd : u.dropWhile (fun c => !isWordChar c) with
    | nil =>
      rw [List.dropWhile_eq_nil_iff] at hd
      have h2 := hd cu hcu
      rw [hcuw] at h2
      cases h2
    | cons d t => exact ⟨d, t, rfl⟩
  have happ : (u ++ '>' :: v).dropWhile (fun c => !isWordChar c) =
      d :: (t ++ '>' :: v) := by
    rw [List.dropWhile_append, hdt]
    simp
  rw [happ]
  dsimp only
  have hcond : ¬ ((parseCore (d :: (t ++ '>' :: v))).2.all
      (fun c => !isWordChar c) = true) := by
    intro hall
    rw [List.all_eq_true] at hall
    have hsplit : (parseCore (d :: (t ++ '>' :: v))).1 ++
        (parseCore (d :: (t ++ '>' :: v))).2 = (d :: t) ++ '>' :: v := by
      rw [parseCore_append]
      rfl
    have hcvin : cv ∈ (parseCore (d :: (t ++ '>' :: v))).2 := by
      rcases List.append_eq_append_iff.mp hsplit with ⟨a, ha1, ha2⟩ | ⟨a, ha1, ha2⟩
      · rw [ha2]
        simp [hcv]
      · cases a with
        | nil =>
          rw [List.append_nil] at ha1
          have : '>' :: v = (parseCore (d :: (t ++ '>' :: v))).2 := ha2
          rw [← this]
          simp [hcv]
        | cons e a' =>
          exfalso
          injection ha2 with h1 h2
          have hgt : '>' ∈ (parseCore (d :: (t ++ '>' :: v))).1 := by
            rw [ha1, ← h1]
            simp
          exact (wordJoin_ne_special
            (parseCore_chars (d :: (t ++ '>' :: v)) '>' hgt)).2.1 rfl
    have h2 := hall cv hcvin
    rw [hcvw] at h2
    cases h2
  rw [if_neg hcond]

theorem processWord_verbatim_of_none {w : List Char}
    (h : wordParts w = none) : processWord w = w := by
  rw [processWord]
  split
  · rfl
  · split
    · rfl
    · rw [h]

theorem joinHy_mem_split {e : List Char} {L : List (List Char)} (h : e ∈ L) :
    ∃ X Y, joinHy L = X ++ e ++ Y := by
  induction L with
  | nil => simp at h
  | cons q r ih =>
    rcases List.mem_cons.mp h with rfl | h2
    · cases r with
      | nil => exact ⟨[], [], by simp [joinHy]⟩
      | cons y r' =>
        exact ⟨[], '-' :: joinHy (y :: r'),
          by rw [joinHy_cons_ne (by simp)]; simp⟩
    · obtain ⟨X, Y, hXY⟩ := ih h2
      cases r with
      | nil => simp at h2
      | cons y r' =>
        exact ⟨q ++ '-' :: X, Y,
          by rw [joinHy_cons_ne (by simp), hXY]; simp [List.append_assoc]⟩

theorem processWord_outcomes (x : List Char) :
    processWord x = x ∨
    ∃ u v, processWord x = u ++ '>' :: v ∧
      (∃ c ∈ u, isWordChar c = true) ∧ (∃ c ∈ v, isWordChar c = true) := by
  rw [processWord]
  split
  · exact Or.inl rfl
  · split
    · exact Or.inl rfl
    · cases hwp : wordParts x with
      | none => exact Or.inl rfl
      | some trip =>
        obtain ⟨p, core, s⟩ := trip
        obtain ⟨hxe, hp, hcore, hs', hcne⟩ := wordParts_some hwp
        dsimp only
        split
        · exact Or.inl rfl
        · next hlen =>
          have hlen2 : 2 ≤ core.length := by omega
          split
          · next hhy =>
            by_cases hall : ∀ q ∈ splitHy core, ppPart q = q
            · left
              rw [show (splitHy core).map ppPart = splitHy core from
                  (List.map_congr_left hall).trans (List.map_id _),
                joinHy_splitHy, ← hxe]
            · push_neg at hall
              obtain ⟨q, hq, hqne⟩ := hall
              rcases ppPart_cases q with hc | ⟨h2, hc⟩
              · exact absurd hc hqne
              · right
                obtain ⟨X, Y, hXY⟩ := joinHy_mem_split
                  (List.mem_map_of_mem ppPart hq)
                refine ⟨p ++ X ++ ['<', 'b'],
                  q.take (getBoldLength q.length) ++
                    '<' :: '/' :: 'b' :: '>' ::
                      (q.drop (getBoldLength q.length) ++ (Y ++ s)), ?_, ?_, ?_⟩
                · rw [hXY, hc]
                  simp [emphasize, List.append_assoc, List.cons_append]
                · exact ⟨'b', by simp, by decide⟩
                · refine ⟨'b', ?_, by decide⟩
                  simp
          · next hhy =>
            right
            refine ⟨p ++ ['<', 'b'],
              core.take (getBoldLength core.length) ++
                '<' :: '/' :: 'b' :: '>' ::
                  (core.drop (getBoldLength core.length) ++ s), ?_, ?_, ?_⟩
            · simp [emphasize, List.append_assoc, List.cons_append]
            · exact ⟨'b', by simp, by decide⟩
            · refine ⟨'b', ?_, by decide⟩
              simp

theorem processWord_idem (x : List Char) :
    processWord (processWord x) = processWord x := by
  rcases processWord_outcomes x with hself | ⟨u, v, hexp, hu, hv⟩
  · rw [hself]
    exact hself
  · rw [hexp]
    exact processWord_verbatim_of_none (wordParts_none_of_split hu hv)

-- =========================================================================
-- Run-structure invariants and reconstruction
-- =========================================================================

theorem runs_mem (l : List Char) : ∀ pr ∈ runs l,
    pr.2 ≠ [] ∧ ∀ c ∈ pr.2, isSpaceChar c = pr.1 := by
  induction l using runs.induct with
  | case1 =>
    rw [runs_nil]
    simp
  | case2 c cs ih =>
    rw [runs]
    intro pr hpr
    rcases List.mem_cons.mp hpr with rfl | hpr
    · refine ⟨by simp, ?_⟩
      intro x hx
      rcases List.mem_cons.mp hx with rfl | hx
      · rfl
      · have h2 := List.mem_takeWhile_imp hx
        simpa using h2
    · exact ih pr hpr

theorem runs_head_fst {m : List Char} {pr : Bool × List Char}
    {R' : List (Bool × List Char)} (h : runs m = pr :: R') :
    ∃ d t, m = d :: t ∧ pr.1 = isSpaceChar d := by
  cases m with
  | nil =>
    rw [runs_nil] at h
    cases h
  | cons d t =>
    rw [runs] at h
    injection h with h1 _
    exact ⟨d, t, rfl, by rw [← h1]⟩

theorem runs_chain (l : List Char) :
    List.Chain' (fun a b : Bool × List Char => a.1 ≠ b.1) (runs l) := by
  induction l using runs.induct with
  | case1 =>
    rw [runs_nil]
    exact List.chain'_nil
  | case2 c cs ih =>
    rw [runs]
    cases hr : runs (cs.dropWhile fun x => isSpaceChar x == isSpaceChar c) with
    | nil => simp
    | cons pr R' =>
      rw [List.chain'_cons]
      constructor
      · obtain ⟨d, t, hdt, hfst⟩ := runs_head_fst hr
        rw [hfst]
        have h3 := dropWhile_head_not hdt
        intro heq
        have heq2 : isSpaceChar c = isSpaceChar d := heq
        rw [heq2] at h3
        simp at h3
      · rw [hr] at ih
        exact ih

theorem runs_reconstruct (R : List (Bool × List Char))
    (hne : ∀ pr ∈ R, pr.2 ≠ [])
    (hhom : ∀ pr ∈ R, ∀ c ∈ pr.2, isSpaceChar c = pr.1)
    (hch : List.Chain' (fun a b => a.1 ≠ b.1) R) :
    runs ((R.map Prod.snd).flatten) = R := by
  induction R with
  | nil => simpa using runs_nil
  | cons pr R' ih =>
    obtain ⟨b, r⟩ := pr
    obtain ⟨c, r', rfl⟩ : ∃ c r', r = c :: r' := by
      cases hr : r with
      | nil => exact absurd hr (hne (b, r) (by simp))
      | cons c r' => exact ⟨c, r', rfl⟩
    have hc : isSpaceChar c = b := hhom (b, c :: r') (by simp) c (by simp)
    simp only [List.map_cons, List.flatten_cons, List.cons_append]
    rw [runs]
    have hr' : ∀ x ∈ r', (fun x => isSpaceChar x == isSpaceChar c) x = true := by
      intro x hx
      have h2 := hhom (b, c :: r') (by simp) x (by simp [hx])
      simp only [h2, hc]
      simp
    have hresthead : ∀ e, ((R'.map Prod.snd).flatten).head? = some e →
        (isSpaceChar e == isSpaceChar c) = false := by
      intro e he
      cases R' with
      | nil => simp at he
      | cons pr2 R'' =>
        obtain ⟨b2, r2⟩ := pr2
        obtain ⟨f, r2', rfl⟩ : ∃ f r2', r2 = f :: r2' := by
          cases hr2 : r2 with
          | nil => exact absurd hr2 (hne (b2, r2) (by simp))
          | cons f r2' => exact ⟨f, r2', rfl⟩
        simp only [List.map_cons, List.flatten_cons, List.cons_append,
          List.head?_cons] at he
        injection he with he1
        have hb2 : isSpaceChar f = b2 :=
          hhom (b2, f :: r2') (by simp) f (by simp)
        have hbne : b ≠ b2 := (List.chain'_cons.mp hch).1
        rw [← he1, hb2, hc]
        exact beq_eq_false_iff_ne.mpr (fun h => hbne h.symm)
    have htw : (r' ++ (R'.map Prod.snd).flatten).takeWhile
        (fun x => isSpaceChar x == isSpaceChar c) = r' := by
      rw [List.takeWhile_append_of_pos hr']
      cases hrest : (R'.map Prod.snd).flatten with
      | nil => simp
      | cons e rest' =>
        rw [List.takeWhile_cons_of_neg]
        · simp
        · have h4 := hresthead e (by rw [hrest]; rfl)
          simp [h4]
    have hdw : (r' ++ (R'.map Prod.snd).flatten).dropWhile
        (fun x => isSpaceChar x == isSpaceChar c) = (R'.map Prod.snd).flatten := by
      rw [List.dropWhile_append_of_pos hr']
      cases hrest : (R'.map Prod.snd).flatten with
      | nil => simp
      | cons e rest' =>
        rw [List.dropWhile_cons_of_neg]
        have h4 := hresthead e (by rw [hrest]; rfl)
        simp [h4]
    rw [htw, hdw, hc]
    have ih2 := ih (fun pr hpr => hne pr (by simp [hpr]))
      (fun pr hpr => hhom pr (by simp [hpr])) hch.tail
    rw [ih2]

theorem processWord_ne_nil {x : List Char} (hx : x ≠ []) :
    processWord x ≠ [] := by
  rcases processWord_outcomes x with hself | ⟨u, v, hexp, _, _⟩
  · rw [hself]
    exact hx
  · rw [hexp]
    simp

theorem emphasize_mem {c : Char} {q : List Char} (h : c ∈ emphasize q) :
    c ∈ q ∨ c ∈ ['<', 'b', '>', '/'] := by
  simp only [emphasize, List.mem_cons, List.mem_append] at h
  rcases h with rfl | rfl | rfl | h | rfl | rfl | rfl | rfl | h
  · simp
  · simp
  · simp
  · exact Or.inl (List.mem_of_mem_take h)
  · simp
  · simp
  · simp
  · simp
  · exact Or.inl (List.mem_of_mem_drop h)

theorem ppPart_mem {c : Char} {q : List Char} (h : c ∈ ppPart q) :
    c ∈ q ∨ c ∈ ['<', 'b', '>', '/'] := by
  rcases ppPart_cases q with hp | ⟨_, hp⟩
  · rw [hp] at h
    exact Or.inl h
  · rw [hp] at h
    exact emphasize_mem h

theorem joinHy_mem {c : Char} : ∀ L : List (List Char), c ∈ joinHy L →
    c = '-' ∨ ∃ q ∈ L, c ∈ q
  | [] => by
    intro h
    simp [joinHy] at h
  | [q] => fun h => Or.inr ⟨q, by simp, h⟩
  | q :: y :: r => by
    intro h
    rw [joinHy_cons_ne (by simp)] at h
    rcases List.mem_append.mp h with h | h
    · exact Or.inr ⟨q, by simp, h⟩
    · rcases List.mem_cons.mp h with rfl | h
      · exact Or.inl rfl
      · rcases joinHy_mem (y :: r) h with h | ⟨q', hq', hc⟩
        · exact Or.inl h
        · exact Or.inr ⟨q', List.mem_cons_of_mem _ hq', hc⟩

theorem processWord_nonspace {x : List Char}
    (hx : ∀ c ∈ x, isSpaceChar c = false) :
    ∀ c ∈ processWord x, isSpaceChar c = false := by
  intro c hc
  rw [processWord] at hc
  split at hc
  · exact hx c hc
  · split at hc
    · exact hx c hc
    · cases hwp : wordParts x with
      | none =>
        rw [hwp] at hc
        exact hx c hc
      | some trip =>
        obtain ⟨p, core, s⟩ := trip
        obtain ⟨hxe, _, _, _, _⟩ := wordParts_some hwp
        rw [hwp] at hc
        dsimp only at hc
        have hxp : ∀ d, d ∈ p → isSpaceChar d = false := by
          intro d hd
          exact hx d (by rw [hxe]; simp [hd])
        have hxcore : ∀ d, d ∈ core → isSpaceChar d = false := by
          intro d hd
          exact hx d (by rw [hxe]; simp [hd])
        have hxs : ∀ d, d ∈ s → isSpaceChar d = false := by
          intro d hd
          exact hx d (by rw [hxe]; simp [hd])
        have hspec : ∀ d : Char, d ∈ ['<', 'b', '>', '/'] →
            isSpaceChar d = false := by decide
        split at hc
        · exact hx c hc
        · split at hc
          · rcases List.mem_append.mp hc with h | h
            · rcases List.mem_append.mp h with h | h
              · exact hxp c h
              · rcases joinHy_mem _ h with rfl | ⟨q', hq', hcq⟩
                · decide
                · rw [List.mem_map] at hq'
                  obtain ⟨q0, hq0, rfl⟩ := hq'
                  rcases ppPart_mem hcq with h0 | h0
                  · exact hxcore c (splitHy_mem_chars core q0 hq0 c h0).1
                  · exact hspec c h0
            · exact hxs c h
          · rcases List.mem_append.mp hc with h | h
            · rcases List.mem_append.mp h with h | h
              · exact hxp c h
              · rcases emphasize_mem h with h0 | h0
                · exact hxcore c h0
                · exact hspec c h0
            · exact hxs c h

/-- Claim C8: the text transformer is idempotent — running `transformText` on
its own output returns that output unchanged, because every `<b>` tag inserted
by the first pass makes the strict `WORD_PARTS` anchor fail on re-processing,
so every token of the output is passed through verbatim by the second pass. -/
theorem transform_idempotent (T : List Char) :
    transformText (transformText T) = transformText T := by
  by_cases h3 : (transformText T).length < 3
  · rw [transformText, if_pos h3]
  · by_cases hw : (transformText T).any isWordChar = true
    · have hE : transformText T = ((runs T).map emitRun).flatten := by
        by_cases hT3 : T.length < 3
        · have hyT : transformText T = T := by rw [transformText, if_pos hT3]
          rw [hyT] at h3
          exact absurd hT3 h3
        · by_cases hTw : T.any isWordChar = true
          · rw [transformText, if_neg hT3, if_neg (by simp [hTw])]
          · have hTw' : T.any isWordChar = false := by simpa using hTw
            have hyT : transformText T = T := by
              rw [transformText, if_neg hT3, if_pos (by simp [hTw'])]
            rw [hyT] at hw
            exact absurd hw hTw
      rw [hE] at h3 hw ⊢
      rw [transformText, if_neg h3, if_neg (by simp [hw])]
      have hrec : runs (((runs T).map emitRun).flatten) =
          (runs T).map (fun pr => (pr.1, emitRun pr)) := by
        have hflat : ((((runs T).map
            (fun pr => (pr.1, emitRun pr))).map Prod.snd)).flatten =
            ((runs T).map emitRun).flatten := by
          rw [List.map_map]
          rfl
        rw [← hflat]
        apply runs_reconstruct
        · intro pr hpr
          rw [List.mem_map] at hpr
          obtain ⟨pr0, hpr0, rfl⟩ := hpr
          obtain ⟨hne0, _⟩ := runs_mem T pr0 hpr0
          obtain ⟨b0, r0⟩ := pr0
          by_cases hb : b0 = true
          · subst hb
            rw [emitRun_ws rfl]
            exact hne0
          · have hb' : b0 = false := by simpa using hb
            subst hb'
            rw [emitRun_tok rfl]
            exact processWord_ne_nil hne0
        · intro pr hpr c hc
          rw [List.mem_map] at hpr
          obtain ⟨pr0, hpr0, rfl⟩ := hpr
          obtain ⟨_, hhom0⟩ := runs_mem T pr0 hpr0
          obtain ⟨b0, r0⟩ := pr0
          by_cases hb : b0 = true
          · subst hb
            rw [emitRun_ws rfl] at hc
            exact hhom0 c hc
          · have hb' : b0 = false := by simpa using hb
            subst hb'
            rw [emitRun_tok rfl] at hc
            exact processWord_nonspace hhom0 c hc
        · rw [List.chain'_map]
          exact runs_chain T
      rw [hrec, List.map_map]
      congr 1
      apply List.map_congr_left
      intro pr hpr
      obtain ⟨b0, r0⟩ := pr
      by_cases hb : b0 = true
      · subst hb
        show emitRun (true, emitRun (true, r0)) = emitRun (true, r0)
        rw [emitRun_ws rfl, emitRun_ws rfl]
      · have hb' : b0 = false := by simpa using hb
        subst hb'
        show emitRun (false, emitRun (false, r0)) = emitRun (false, r0)
        rw [show emitRun (false, r0) = processWord r0 from emitRun_tok rfl]
        rw [emitRun_tok rfl]
        exact processWord_idem r0
    · have hw' : (transformText T).any isWordChar = false := by simpa using hw
      rw [transformText, if_neg h3, if_pos (by simp [hw'])]
